import Mathlib

/-!
Verification of the recipe-scale core: the ingredient line parser
(`src/features/scanner/parseIngredients.ts`), the proportional scaler and
display formatter (`src/features/scaling/scaleIngredients.ts`), and the
step parser (the unnamed step-parser module).  Each definition below is a
shallow embedding of the corresponding TypeScript function, working over
`List Char` for strings and exact rationals for JavaScript numbers.
-/

set_option maxRecDepth 8000

namespace RecipeScale

/-- Whitespace class of JavaScript regular expressions and of
`String.prototype.trim` (ECMA-262 WhiteSpace plus LineTerminator). -/
def isJsSpace (c : Char) : Bool :=
  let n := c.toNat
  n == 9 || n == 10 || n == 11 || n == 12 || n == 13 || n == 32 || n == 160 ||
  n == 0x1680 || (0x2000 ≤ n && n ≤ 0x200a) || n == 0x2028 || n == 0x2029 ||
  n == 0x202f || n == 0x205f || n == 0x3000 || n == 0xfeff

/-- Word character of JavaScript regular expressions, used by the
word-boundary assertion: [A-Za-z0-9_]. -/
def isWordChar (c : Char) : Bool :=
  (c.toNat ≥ 65 && c.toNat ≤ 90) || (c.toNat ≥ 97 && c.toNat ≤ 122) ||
  c.isDigit || c == '_'

/-- ASCII lower-casing, modelling `String.prototype.toLowerCase` on the
ASCII range (the only range the parsers' fixed vocabularies use). -/
def toLowerCh (c : Char) : Char :=
  if c.toNat ≥ 65 && c.toNat ≤ 90 then Char.ofNat (c.toNat + 32) else c

/-- Both-ends trim, modelling `String.prototype.trim`. -/
def trimChars (l : List Char) : List Char :=
  ((l.dropWhile isJsSpace).reverse.dropWhile isJsSpace).reverse

/-- Split on the newline character, modelling `text.split('\n')`. -/
def splitLines : List Char → List (List Char)
  | [] => [[]]
  | c :: cs =>
    if c = '\n' then [] :: splitLines cs
    else
      match splitLines cs with
      | [] => [[c]]
      | l :: ls => (c :: l) :: ls

/-- Numeric value of a digit character. -/
def digitVal (c : Char) : ℕ := c.toNat - 48

/-- Value of a string of decimal digits, modelling `parseInt(s, 10)` on
all-digit strings. -/
def digitsVal (l : List Char) : ℕ := l.foldl (fun a c => 10 * a + digitVal c) 0

def takeDigits (l : List Char) : List Char := l.takeWhile Char.isDigit

def takeSpaces (l : List Char) : List Char := l.takeWhile isJsSpace

/-!  The ingredient parser (`parseIngredients.ts`). -/

/-- An exact nonnegative rational written as an unnormalised fraction.
The quantity values produced by the parser are of this shape (the source
computes them with exact-in-this-range floating point arithmetic:
`parseInt` results, `whole + numerator/denominator`, `parseFloat`). -/
structure Frac where
  num : ℕ
  den : ℕ
deriving DecidableEq, Repr

/-- The rational value of a `Frac`. -/
def Frac.toRat (f : Frac) : ℚ := (f.num : ℚ) / (f.den : ℚ)

/-- Result of matching `/^(\d+)\s+(\d+)\/(\d+)$/` (the whole-string mixed
number test inside `parseFraction`): whole, numerator, denominator. -/
def mixedExact (t : List Char) : Option (ℕ × ℕ × ℕ) :=
  let d1 := takeDigits t
  if d1.isEmpty then none else
  let r1 := t.drop d1.length
  let s1 := takeSpaces r1
  if s1.isEmpty then none else
  let r2 := r1.drop s1.length
  let d2 := takeDigits r2
  if d2.isEmpty then none else
  match r2.drop d2.length with
  | '/' :: r4 =>
    let d3 := takeDigits r4
    if d3.isEmpty then none
    else if (r4.drop d3.length).isEmpty then some (digitsVal d1, digitsVal d2, digitsVal d3)
    else none
  | _ => none

/-- Result of matching `/^(\d+)\/(\d+)$/` (the whole-string simple
fraction test inside `parseFraction`): numerator, denominator. -/
def fracExact (t : List Char) : Option (ℕ × ℕ) :=
  let d1 := takeDigits t
  if d1.isEmpty then none else
  match t.drop d1.length with
  | '/' :: r2 =>
    let d2 := takeDigits r2
    if d2.isEmpty then none
    else if (r2.drop d2.length).isEmpty then some (digitsVal d1, digitsVal d2)
    else none
  | _ => none

/-- Model of `parseFloat` on the token shapes the quantity regex can
produce (optional digits, optional dot, digits; no sign, no exponent —
the quantity regex admits neither).  `none` models `NaN`. -/
def jsParseFloat (t : List Char) : Option Frac :=
  let d1 := takeDigits t
  match t.drop d1.length with
  | '.' :: r2 =>
    let d2 := takeDigits r2
    if d1.isEmpty && d2.isEmpty then none
    else some ⟨digitsVal d1 * 10 ^ d2.length + digitsVal d2, 10 ^ d2.length⟩
  | _ => if d1.isEmpty then none else some ⟨digitsVal d1, 1⟩

/-- Embedding of `parseFraction`: trims, tries the mixed-number pattern,
then the simple-fraction pattern, then `parseFloat`.  A zero denominator
yields `none` (the source returns `NaN`).  Values are kept as exact
unnormalised fractions; `whole + numerator/denominator` becomes
`(whole * den + num) / den`, the same rational. -/
def parseFraction (l : List Char) : Option Frac :=
  let t := trimChars l
  match mixedExact t with
  | some (w, nu, de) => if de = 0 then none else some ⟨w * de + nu, de⟩
  | none =>
    match fracExact t with
    | some (nu, de) => if de = 0 then none else some ⟨nu, de⟩
    | none => jsParseFloat t

/-- The leading clean-up of each line in `parseIngredients`:
`line.replace(/^[\s\-*â€˘]+/, '').trim()`.  Note the source's character
class is encoding-corrupted: it contains the three characters U+00E2,
U+20AC, U+02D8 (the bytes of the bullet U+2022 read in a wrong encoding)
and NOT the bullet character itself. -/
def cleanLine (l : List Char) : List Char :=
  trimChars (l.dropWhile fun c =>
    isJsSpace c || c == '-' || c == '*' || c == 'â' || c == '€' || c == '˘')

/-- Match of the mixed-number alternative `\d+\s+\d+\/\d+` of the
quantity regex, returning the matched token and the rest of the line. -/
def matchMixed (l : List Char) : Option (List Char × List Char) :=
  let d1 := takeDigits l
  if d1.isEmpty then none else
  let r1 := l.drop d1.length
  let s1 := takeSpaces r1
  if s1.isEmpty then none else
  let r2 := r1.drop s1.length
  let d2 := takeDigits r2
  if d2.isEmpty then none else
  match r2.drop d2.length with
  | '/' :: r4 =>
    let d3 := takeDigits r4
    if d3.isEmpty then none
    else some (d1 ++ s1 ++ d2 ++ '/' :: d3, r4.drop d3.length)
  | _ => none

/-- Match of the simple-fraction alternative `\d+\/\d+`. -/
def matchFrac (l : List Char) : Option (List Char × List Char) :=
  let d1 := takeDigits l
  if d1.isEmpty then none else
  match l.drop d1.length with
  | '/' :: r2 =>
    let d2 := takeDigits r2
    if d2.isEmpty then none
    else some (d1 ++ '/' :: d2, r2.drop d2.length)
  | _ => none

/-- Match of the decimal alternative `\d*\.?\d+` (with its regex
backtracking resolved: `digits.digits` if possible, else plain digits,
else `.digits`). -/
def matchDec (l : List Char) : Option (List Char × List Char) :=
  let d1 := takeDigits l
  let r1 := l.drop d1.length
  match r1 with
  | '.' :: r2 =>
    let d2 := takeDigits r2
    if !d2.isEmpty then some (d1 ++ '.' :: d2, r2.drop d2.length)
    else if !d1.isEmpty then some (d1, r1)
    else none
  | _ => if !d1.isEmpty then some (d1, r1) else none

/-- Embedding of the leading-quantity match
`/^(\d+\s+\d+\/\d+|\d+\/\d+|\d*\.?\d+)\s*/`: the captured token and the
rest of the line after the trailing whitespace run. -/
def matchQuantity (l : List Char) : Option (List Char × List Char) :=
  match matchMixed l with
  | some (t, r) => some (t, r.dropWhile isJsSpace)
  | none =>
    match matchFrac l with
    | some (t, r) => some (t, r.dropWhile isJsSpace)
    | none =>
      match matchDec l with
      | some (t, r) => some (t, r.dropWhile isJsSpace)
      | none => none

/-- The fixed unit vocabulary, in source order; an inner blank stands for
the `\s+` the source substitutes for spaces when building the regex. -/
def unitPats : List (List Char) :=
  ["g", "gram", "grams",
   "kg", "kilogram", "kilograms",
   "oz", "ounce", "ounces",
   "lb", "lbs", "pound", "pounds",
   "ml", "milliliter", "milliliters", "millilitre", "millilitres",
   "l", "liter", "liters", "litre", "litres",
   "cup", "cups",
   "tsp", "teaspoon", "teaspoons",
   "tbsp", "tablespoon", "tablespoons",
   "fl oz", "fluid ounce", "fluid ounces",
   "pinch", "pinches",
   "dash", "dashes",
   "bunch", "bunches",
   "clove", "cloves",
   "slice", "slices",
   "piece", "pieces",
   "can", "cans", "package", "packages", "pkg",
   "stick", "sticks"].map String.data

/-- Case-insensitive match of one unit pattern at the start of the text
(a blank in the pattern matches `\s+`); returns the actually matched
characters and the rest. -/
def matchUnitPat : List Char → List Char → Option (List Char × List Char)
  | [], l => some ([], l)
  | _ :: _, [] => none
  | p :: ps, c :: cs =>
    if p = ' ' then
      if isJsSpace c then
        match matchUnitPat ps (cs.dropWhile isJsSpace) with
        | some (m, r) => some (c :: cs.takeWhile isJsSpace ++ m, r)
        | none => none
      else none
    else
      if toLowerCh c = p then
        match matchUnitPat ps cs with
        | some (m, r) => some (c :: m, r)
        | none => none
      else none

/-- True when a word boundary follows: end of text or a non-word char. -/
def boundaryOk : List Char → Bool
  | [] => true
  | c :: _ => !isWordChar c

/-- Embedding of the unit regex `^(p1|p2|...)\b` with `i` flag: the
alternatives are tried in source order and the first one that also
satisfies the word boundary wins, as in JavaScript backtracking.
Returns the matched text lower-cased and the rest of the line. -/
def findUnit : List (List Char) → List Char → Option (List Char × List Char)
  | [], _ => none
  | p :: ps, rem =>
    match matchUnitPat p rem with
    | some (m, r) => if boundaryOk r then some (m.map toLowerCh, r) else findUnit ps rem
    | none => findUnit ps rem

/-- The label clean-up `remainder.replace(/^of\s+/i, '').trim()`. -/
def stripOf (l : List Char) : List Char :=
  match l with
  | c1 :: c2 :: rest =>
    if toLowerCh c1 == 'o' && toLowerCh c2 == 'f' then
      match rest with
      | c3 :: _ =>
        if isJsSpace c3 then trimChars (rest.dropWhile isJsSpace) else trimChars l
      | [] => trimChars l
    else trimChars l
  | _ => trimChars l

/-- Processing of a single line of `parseIngredients`: quantity (as an
exact fraction), optional unit, label; `none` when the line is skipped.
The source's `quantity <= 0 || isNaN(quantity)` test appears here as the
`NaN` case (`parseFraction` returning `none`) plus the `f.num = 0` test:
every quantity the parser can build is `num / den` with `den > 0` and
`num, den : ℕ`, so it is `<= 0` exactly when `num = 0`. -/
def parseLine (l : List Char) : Option (Frac × Option (List Char) × List Char) :=
  let c := cleanLine l
  if c.isEmpty then none else
  match matchQuantity c with
  | none => none
  | some (tok, rest0) =>
    match parseFraction tok with
    | none => none
    | some f =>
      if f.num = 0 then none else
      let rem := trimChars rest0
      if rem.isEmpty then none else
      match findUnit unitPats rem with
      | some (u, r) =>
        let lab := stripOf (trimChars r)
        if lab.isEmpty then none else some (f, some u, lab)
      | none =>
        let lab := stripOf rem
        if lab.isEmpty then none else some (f, none, lab)

/-- Fuel-driven digit expansion of a natural number (most significant
digit first); the fuel argument only serves structural recursion. -/
def digitChar (n : ℕ) : Char :=
  match n with
  | 0 => '0' | 1 => '1' | 2 => '2' | 3 => '3' | 4 => '4'
  | 5 => '5' | 6 => '6' | 7 => '7' | 8 => '8' | 9 => '9'
  | _ => '0'

def natDigitsAux : ℕ → ℕ → List Char
  | 0, _ => []
  | fuel + 1, n =>
    if n < 10 then [digitChar n]
    else natDigitsAux fuel (n / 10) ++ [digitChar (n % 10)]

/-- Decimal digit string of a natural number. -/
def natDigits (n : ℕ) : List Char := natDigitsAux (n + 1) n

/-- The ingredient value type of `recipeTypes.ts`, with the quantity as
the exact rational the source's arithmetic denotes. -/
structure Ingredient where
  id : String
  quantity : ℚ
  unit : Option String
  label : String
deriving DecidableEq

/-- Assembly of the parsed lines into ingredients.  The source's
`generateId()` produces an opaque fresh string (random UUID); it is
modelled by the ingredient's position, which preserves exactly the
property the rest of the code uses: ids are unique and stable. -/
def buildIngredients : ℕ → List (Frac × Option (List Char) × List Char) → List Ingredient
  | _, [] => []
  | i, (f, u, lab) :: ts =>
    ⟨String.mk (natDigits i), f.toRat, u.map String.mk, String.mk lab⟩ ::
      buildIngredients (i + 1) ts

/-- Embedding of `parseIngredients`. -/
def parseIngredients (s : String) : List Ingredient :=
  buildIngredients 0 ((splitLines s.data).filterMap parseLine)

/-!  The scaling engine (`scaleIngredients.ts`). -/

/-- Embedding of `scaleIngredients`: non-positive or equal serving counts
yield a shallow copy (value-identical elements); otherwise every quantity
is multiplied by `targetServings / originalServings`. -/
def scaleIngredients (ingredients : List Ingredient)
    (originalServings targetServings : ℚ) : List Ingredient :=
  if originalServings ≤ 0 ∨ targetServings ≤ 0 then
    ingredients.map fun i => i
  else if originalServings = targetServings then
    ingredients.map fun i => i
  else
    let scalingFactor := targetServings / originalServings
    ingredients.map fun i => { i with quantity := i.quantity * scalingFactor }

/-- JavaScript `Math.round`: nearest integer, ties toward positive
infinity. -/
def jsRound (x : ℚ) : ℤ := ⌊x + 1 / 2⌋

/-- Removal of trailing zero digits from a `d`-digit fraction part `fp`,
modelling what `Number.prototype.toString` does to the exact value
`fp / 10^d`: returns the remaining fraction part and digit count. -/
def stripZeros : ℕ → ℕ → ℕ × ℕ
  | fp, 0 => (fp, 0)
  | fp, d + 1 => if fp % 10 = 0 then stripZeros (fp / 10) d else (fp, d + 1)

/-- Exactly `d` decimal digits of `fp`, zero padded on the left. -/
def padDigits : ℕ → ℕ → List Char
  | 0, _ => []
  | d + 1, fp => padDigits d (fp / 10) ++ [digitChar (fp % 10)]

/-- Decimal rendering of the exact value `n / 10^d`, trailing zeros and
an unnecessary decimal point removed — what `Number.prototype.toString`
prints for such a value (its shortest round-tripping decimal). -/
def renderScaled (n d : ℕ) : List Char :=
  if (stripZeros (n % 10 ^ d) d).2 = 0 then natDigits (n / 10 ^ d)
  else natDigits (n / 10 ^ d) ++
    '.' :: padDigits (stripZeros (n % 10 ^ d) d).2 (stripZeros (n % 10 ^ d) d).1

/-- Embedding of `formatQuantity`: round to `maxDecimals` fractional
digits with `Math.round`, then print with trailing zeros removed.  The
source's default for `maxDecimals` is 2. -/
def formatQuantity (quantity : ℚ) (maxDecimals : ℕ) : String :=
  let n := jsRound (quantity * 10 ^ maxDecimals)
  if n < 0 then String.mk ('-' :: renderScaled n.natAbs maxDecimals)
  else String.mk (renderScaled n.toNat maxDecimals)

/-- Rational value denoted by an (unsigned) decimal string: used to state
that the rendering of `formatQuantity` is faithful. -/
def strToRat (s : String) : ℚ :=
  let ip := s.data.takeWhile fun c => c != '.'
  match s.data.dropWhile (fun c => c != '.') with
  | [] => (digitsVal ip : ℚ)
  | _ :: frac => (digitsVal ip : ℚ) + (digitsVal frac : ℚ) / 10 ^ frac.length

/-!  The step parser (the unnamed step-parser module). -/

/-- The instruction-section header vocabulary `STEP_HEADERS`. -/
def stepHeaders : List (List Char) :=
  ["instructions", "directions", "steps", "method", "preparation",
   "procedure", "how to make", "to make"].map String.data

/-- The section-ending header vocabulary `SECTION_END_HEADERS`. -/
def endHeaders : List (List Char) :=
  ["ingredients", "notes", "tips", "nutrition", "nutritional", "serving",
   "servings", "yield", "makes", "storage", "variations"].map String.data

/-- Embedding of `isHeader`: lower-case, strip the trailing run of colons
and whitespace, trim, then compare with each header for equality or for
being the first word. -/
def isHeaderL (l : List Char) (headers : List (List Char)) : Bool :=
  let n := trimChars (((l.map toLowerCh).reverse.dropWhile fun c =>
    c == ':' || isJsSpace c).reverse)
  headers.any fun h => n == h || (h ++ [' ']).isPrefixOf n

/-- Case-insensitive literal match; returns the rest on success. -/
def ciDropLit : List Char → List Char → Option (List Char)
  | [], r => some r
  | _ :: _, [] => none
  | pc :: ps, c :: cs => if toLowerCh c = pc then ciDropLit ps cs else none

/-- The `(\d+)[.):\s]\s*` tail of `NUMBERED_STEP_REGEX`: digits, one
separator character, then a whitespace run; returns the number and the
rest. -/
def numTail (l : List Char) : Option (ℕ × List Char) :=
  let d := takeDigits l
  if d.isEmpty then none else
  match l.drop d.length with
  | c :: r =>
    if c == '.' || c == ')' || c == ':' || isJsSpace c then
      some (digitsVal d, r.dropWhile isJsSpace)
    else none
  | [] => none

/-- Embedding of `NUMBERED_STEP_REGEX = /^(?:step\s*)?(\d+)[.):\s]\s*/i`:
an optional `step` word with following whitespace, then `numTail`.  When
the `step` path fails the regex backtracks to the bare-number path, which
can only succeed if the line did not start with `step`. -/
def matchNumbered (l : List Char) : Option (ℕ × List Char) :=
  match ciDropLit ['s', 't', 'e', 'p'] l with
  | some r =>
    match numTail (r.dropWhile isJsSpace) with
    | some x => some x
    | none => numTail l
  | none => numTail l

/-- True when the first character is one of the bullet markers of
`BULLET_REGEX` (dash, bullet, asterisk, middle dot). -/
def bulletTest (l : List Char) : Bool :=
  match l with
  | c :: _ => c == '-' || c == '•' || c == '*' || c == '·'
  | [] => false

/-- Embedding of `cleanStepLine`: trim, strip one numbered prefix, strip
one bullet marker with its following whitespace, trim again. -/
def cleanStepLine (l : List Char) : List Char :=
  let t := trimChars l
  let t1 := match matchNumbered t with
    | some (_, r) => r
    | none => t
  let t2 := match t1 with
    | c :: rest =>
      if c == '-' || c == '•' || c == '*' || c == '·' then rest.dropWhile isJsSpace
      else t1
    | [] => t1
  trimChars t2

/-- Embedding of the quantity-plus-unit test
`/^\d+\s*[\d\/]*\s*(cup|tsp|tbsp|oz|g|ml|lb)/i` used to skip ingredient
look-alike lines. -/
def ingLike (l : List Char) : Bool :=
  let d := takeDigits l
  if d.isEmpty then false else
  let r1 := (l.drop d.length).dropWhile isJsSpace
  let r2 := r1.dropWhile fun c => c.isDigit || c == '/'
  let r3 := r2.dropWhile isJsSpace
  (["cup", "tsp", "tbsp", "oz", "g", "ml", "lb"].map String.data).any
    fun u => (ciDropLit u r3).isSome

/-- Embedding of `extractStepsFromSection` on the lines after a header:
stop at a section-ending header, skip blank lines and ingredient
look-alikes, keep the cleaned non-empty rest. -/
def extractSection : List (List Char) → List (List Char)
  | [] => []
  | l :: rest =>
    let t := trimChars l
    if isHeaderL t endHeaders then []
    else if t.isEmpty then extractSection rest
    else if ingLike t then extractSection rest
    else
      let c := cleanStepLine t
      if c.isEmpty then extractSection rest else c :: extractSection rest

/-- The header-strategy loop of `parseSteps`: for each line matching a
step header, extract the following section; return the first non-empty
extraction. -/
def tryHeaders : List (List Char) → Option (List (List Char))
  | [] => none
  | l :: rest =>
    if isHeaderL (trimChars l) stepHeaders then
      let s := extractSection rest
      if s.isEmpty then tryHeaders rest else some s
    else tryHeaders rest

/-- A numbered line collected by `findNumberedSteps`: its numeric prefix
and cleaned text. -/
structure NumStep where
  num : ℕ
  text : List Char
deriving DecidableEq, Repr

instance : IsTotal NumStep fun a b => a.num ≤ b.num :=
  ⟨fun a b => Nat.le_total a.num b.num⟩

instance : IsTrans NumStep fun a b => a.num ≤ b.num :=
  ⟨fun _ _ _ => Nat.le_trans⟩

/-- The collection loop of `findNumberedSteps`: every non-blank line with
a numbered prefix and non-empty cleaned text, in source order. -/
def collectNumbered : List (List Char) → List NumStep
  | [] => []
  | l :: rest =>
    let t := trimChars l
    if t.isEmpty then collectNumbered rest
    else
      match matchNumbered t with
      | some (n, _) =>
        let c := cleanStepLine t
        if c.isEmpty then collectNumbered rest else ⟨n, c⟩ :: collectNumbered rest
      | none => collectNumbered rest

/-- The sort `numberedLines.sort((a, b) => a.num - b.num)`.  JavaScript
`Array.prototype.sort` is stable, and a stable comparison sort on the
`num` key is exactly insertion sort with `a.num ≤ b.num`. -/
def sortPairs (l : List NumStep) : List NumStep :=
  List.insertionSort (fun a b => a.num ≤ b.num) l

/-- Embedding of `findNumberedSteps`: needs at least two collected lines,
sorts by number, and accepts only when the lowest number is at most 2. -/
def findNumberedSteps (lines : List (List Char)) : List (List Char) :=
  let pairs := collectNumbered lines
  if 2 ≤ pairs.length then
    match sortPairs pairs with
    | [] => []
    | p :: ps => if p.num ≤ 2 then (p :: ps).map NumStep.text else []
  else []

/-- The scanning loop of `findBulletedSteps`, carrying the accumulated
steps, the `inBulletSection` flag and the `consecutiveBullets` counter.
A blank line ends the scan when the flag is set and the counter is at
least 2; an accepted bullet (not ingredient-like, cleaned length over 15)
is appended and bumps the counter; a non-blank non-bullet line resets the
counter when the flag is set. -/
def bulletAux : List (List Char) → List (List Char) → Bool → ℕ → List (List Char)
  | [], steps, _, _ => steps
  | l :: rest, steps, inB, cb =>
    let t := trimChars l
    if t.isEmpty then
      if inB ∧ 2 ≤ cb then steps else bulletAux rest steps inB cb
    else if bulletTest t then
      let c := cleanStepLine t
      if ingLike c then bulletAux rest steps inB cb
      else if 15 < c.length then bulletAux rest (steps ++ [c]) true (cb + 1)
      else bulletAux rest steps inB cb
    else if inB then bulletAux rest steps true 0
    else bulletAux rest steps inB cb

/-- Embedding of `findBulletedSteps`: run the scan, then keep the result
only when at least two steps were collected. -/
def findBulletedSteps (lines : List (List Char)) : List (List Char) :=
  let s := bulletAux lines [] false 0
  if 2 ≤ s.length then s else []

def linesOf (s : String) : List (List Char) := splitLines s.data

/-- A line the bulleted-steps scan accepts as a step: non-blank, bullet
marker first, cleaned text not ingredient-like and longer than 15. -/
def acceptedBullet (l : List Char) : Bool :=
  !(trimChars l).isEmpty && bulletTest (trimChars l) &&
  !(ingLike (cleanStepLine (trimChars l))) &&
  decide (15 < (cleanStepLine (trimChars l)).length)

/-- Embedding of `parseSteps`: empty input short-circuits; otherwise the
header strategy, then the numbered fallback, then the bulleted one. -/
def parseSteps (s : String) : List String :=
  if s = "" then [] else
  let lines := linesOf s
  match tryHeaders lines with
  | some steps => steps.map String.mk
  | none =>
    let ns := findNumberedSteps lines
    if ns.isEmpty then (findBulletedSteps lines).map String.mk
    else ns.map String.mk

/-!  Helper lemmas. -/

/-- The scaler in closed form: one map over the input with the branch
condition folded into each element. -/
theorem scaleIngredients_eq_map (ings : List Ingredient) (os ts : ℚ) :
    scaleIngredients ings os ts = ings.map fun a =>
      if os ≤ 0 ∨ ts ≤ 0 ∨ os = ts then a
      else { a with quantity := a.quantity * (ts / os) } := by
  unfold scaleIngredients
  by_cases h1 : os ≤ 0 ∨ ts ≤ 0
  · have hc : os ≤ 0 ∨ ts ≤ 0 ∨ os = ts := by tauto
    simp only [if_pos h1]
    exact List.map_congr_left fun a _ => by rw [if_pos hc]
  · by_cases h2 : os = ts
    · have hc : os ≤ 0 ∨ ts ≤ 0 ∨ os = ts := by tauto
      simp only [if_neg h1, if_pos h2]
      exact List.map_congr_left fun a _ => by rw [if_pos hc]
    · have hc : ¬(os ≤ 0 ∨ ts ≤ 0 ∨ os = ts) := by tauto
      simp only [if_neg h1, if_neg h2]
      exact List.map_congr_left fun a _ => by rw [if_neg hc]

/-- Every fraction `parseFraction` can return has a positive
denominator (zero denominators are rejected as `NaN`). -/
theorem parseFraction_den_pos : ∀ t f, parseFraction t = some f → 0 < f.den := by
  intro t f h
  unfold parseFraction at h
  simp only [] at h
  split at h
  · rename_i w nu de heq
    split at h
    · simp at h
    · rename_i hde
      simp only [Option.some.injEq] at h
      rw [← h]
      exact Nat.pos_of_ne_zero hde
  · split at h
    · rename_i nu de heq
      split at h
      · simp at h
      · rename_i hde
        simp only [Option.some.injEq] at h
        rw [← h]
        exact Nat.pos_of_ne_zero hde
    · unfold jsParseFloat at h
      simp only [] at h
      split at h
      · rename_i r2 heq2
        split at h
        · simp at h
        · simp only [Option.some.injEq] at h
          rw [← h]
          exact pow_pos (by norm_num) _
      · split at h
        · simp at h
        · simp only [Option.some.injEq] at h
          rw [← h]
          norm_num

/-- A line `parseLine` accepts has a positive quantity numerator, a
positive denominator, and a non-empty label. -/
theorem parseLine_sound : ∀ l f u lab, parseLine l = some (f, u, lab) →
    0 < f.num ∧ 0 < f.den ∧ lab ≠ [] := by
  intro l f u lab h
  unfold parseLine at h
  simp only [] at h
  split at h
  · simp at h
  · split at h
    · simp at h
    · rename_i tok rest0 heq
      split at h
      · simp at h
      · rename_i f0 hpf
        split at h
        · simp at h
        · rename_i hnum
          split at h
          · simp at h
          · split at h
            · rename_i u0 r hfu
              split at h
              · simp at h
              · rename_i hlab
                simp only [Option.some.injEq, Prod.mk.injEq] at h
                obtain ⟨hf, _, hl⟩ := h
                subst hf
                subst hl
                refine ⟨Nat.pos_of_ne_zero hnum, parseFraction_den_pos _ _ hpf, ?_⟩
                intro hc
                simp [hc] at hlab
            · rename_i hfu
              split at h
              · simp at h
              · rename_i hlab
                simp only [Option.some.injEq, Prod.mk.injEq] at h
                obtain ⟨hf, _, hl⟩ := h
                subst hf
                subst hl
                refine ⟨Nat.pos_of_ne_zero hnum, parseFraction_den_pos _ _ hpf, ?_⟩
                intro hc
                simp [hc] at hlab

/-- Every member of `buildIngredients i ts` is built from some parsed
triple of `ts`. -/
theorem mem_buildIngredients : ∀ (ts : List (Frac × Option (List Char) × List Char)) (i : ℕ)
    (ing : Ingredient), ing ∈ buildIngredients i ts →
    ∃ t ∈ ts, ∃ j, ing = ⟨String.mk (natDigits j), t.1.toRat, t.2.1.map String.mk,
      String.mk t.2.2⟩ := by
  intro ts
  induction ts with
  | nil =>
    intro i ing h
    simp [buildIngredients] at h
  | cons t ts ih =>
    intro i ing h
    obtain ⟨f, u, lab⟩ := t
    simp only [buildIngredients, List.mem_cons] at h
    rcases h with h | h
    · exact ⟨(f, u, lab), by simp, i, h⟩
    · obtain ⟨t2, ht2, j, hj⟩ := ih (i + 1) ing h
      exact ⟨t2, by simp [ht2], j, hj⟩

/-- `parseIngredients "2 cups flour"` in closed form (shared by witness
proofs below). -/
theorem parseIngredients_flour :
    parseIngredients "2 cups flour" = [⟨"0", 2, some "cups", "flour"⟩] := by
  have h : (splitLines ("2 cups flour").data).filterMap parseLine =
      [(⟨2, 1⟩, some "cups".data, "flour".data)] := by decide
  unfold parseIngredients
  rw [h]
  simp only [buildIngredients, Frac.toRat, Option.map_some, List.cons.injEq, and_true,
    Ingredient.mk.injEq]
  norm_num
  decide

/-!  Claims. -/

/-- C1: `parseIngredients` on the four-line example yields exactly the
four ingredients (2, "cups", "flour"), (0.5, "cup", "sugar"),
(3, no unit, "eggs"), (100, "ml", "milk"), in that order. -/
theorem claim_C1 :
    (parseIngredients "2 cups flour\n1/2 cup sugar\n3 eggs\n100 ml milk").map
      (fun i => (i.quantity, i.unit, i.label)) =
    [((2 : ℚ), some "cups", "flour"), ((1/2 : ℚ), some "cup", "sugar"),
     ((3 : ℚ), none, "eggs"), ((100 : ℚ), some "ml", "milk")] := by
  have h : (splitLines ("2 cups flour\n1/2 cup sugar\n3 eggs\n100 ml milk").data).filterMap
      parseLine =
      [(⟨2, 1⟩, some "cups".data, "flour".data),
       (⟨1, 2⟩, some "cup".data, "sugar".data),
       (⟨3, 1⟩, none, "eggs".data),
       (⟨100, 1⟩, some "ml".data, "milk".data)] := by decide
  unfold parseIngredients
  rw [h]
  simp only [buildIngredients, List.map_cons, List.map_nil, List.cons.injEq, Prod.mk.injEq,
    Frac.toRat, Option.map_some, Option.map_none, and_true]
  norm_num

/-- C2: for every ingredient list and serving pair the scaler preserves
length, id, unit and label elementwise, leaves quantities unchanged when
either count is non-positive or both are equal, and otherwise multiplies
each quantity by `targetServings / originalServings`.  (The model is
total, matching the source function never throwing.) -/
theorem claim_C2 (ings : List Ingredient) (os ts : ℚ) :
    (scaleIngredients ings os ts).length = ings.length ∧
    ∀ i : ℕ, (scaleIngredients ings os ts)[i]? =
      (ings[i]?).map fun a =>
        if os ≤ 0 ∨ ts ≤ 0 ∨ os = ts then a
        else { a with quantity := a.quantity * (ts / os) } := by
  rw [scaleIngredients_eq_map]
  exact ⟨List.length_map _ _, fun i => List.getElem?_map _ _ _⟩

/-- C8: scaling 4 → 8 doubles every quantity, and re-scaling the result
8 → 4 restores the original list exactly (the model is exact rational
arithmetic; in the source both factors, 2 and 0.5, are exact in binary
floating point, so the same identity holds there). -/
theorem claim_C8 (ings : List Ingredient) :
    scaleIngredients ings 4 8 = ings.map (fun a => { a with quantity := a.quantity * 2 }) ∧
    scaleIngredients (scaleIngredients ings 4 8) 8 4 = ings := by
  have h48 : scaleIngredients ings 4 8 =
      ings.map fun a => { a with quantity := a.quantity * 2 } := by
    rw [scaleIngredients_eq_map]
    refine List.map_congr_left fun a _ => ?_
    rw [if_neg (by norm_num)]
    norm_num
  refine ⟨h48, ?_⟩
  rw [h48, scaleIngredients_eq_map, List.map_map]
  have hid : ∀ a : Ingredient,
      ((fun a : Ingredient =>
        if (8 : ℚ) ≤ 0 ∨ (4 : ℚ) ≤ 0 ∨ (8 : ℚ) = 4 then a
        else { a with quantity := a.quantity * (4 / 8) }) ∘
        fun a : Ingredient => { a with quantity := a.quantity * 2 }) a = a := by
    intro a
    cases a with
    | mk id q u lab =>
      simp only [Function.comp_apply,
        if_neg (by norm_num : ¬((8:ℚ) ≤ 0 ∨ (4:ℚ) ≤ 0 ∨ (8:ℚ) = 4)), Ingredient.mk.injEq,
        true_and, and_true]
      ring
  calc ings.map _ = ings.map id := List.map_congr_left fun a _ => hid a
    _ = ings := List.map_id ings

/-- C3: every emitted ingredient has a strictly positive quantity and a
non-empty label; and any line whose matched leading quantity token
converts to a non-number or to a value at most zero contributes no
ingredient. -/
theorem claim_C3 :
    (∀ s : String, ∀ ing ∈ parseIngredients s, 0 < ing.quantity ∧ ing.label ≠ "") ∧
    (∀ l tok rest, matchQuantity (cleanLine l) = some (tok, rest) →
      ((parseFraction tok).map Frac.toRat).getD 0 ≤ 0 → parseLine l = none) := by
  constructor
  · intro s ing hing
    unfold parseIngredients at hing
    obtain ⟨t, ht, j, hj⟩ := mem_buildIngredients _ _ _ hing
    obtain ⟨f, u, lab⟩ := t
    rw [List.mem_filterMap] at ht
    obtain ⟨line, _, hpl⟩ := ht
    obtain ⟨hnum, hden, hlab⟩ := parseLine_sound _ _ _ _ hpl
    subst hj
    constructor
    · show 0 < Frac.toRat f
      unfold Frac.toRat
      apply div_pos
      · exact_mod_cast hnum
      · exact_mod_cast hden
    · show String.mk lab ≠ ""
      intro hc
      exact hlab (by simpa using congrArg String.data hc)
  · intro l tok rest h1 h2
    unfold parseLine
    simp only []
    by_cases hc : (cleanLine l).isEmpty = true
    · simp [hc]
    · simp only [hc, if_false]
      rw [h1]
      cases hp : parseFraction tok with
      | none => simp [hp]
      | some f =>
        rw [hp] at h2
        have h3 : Frac.toRat f ≤ 0 := by simpa using h2
        have hdpos : 0 < f.den := parseFraction_den_pos _ _ hp
        have hdq : (0 : ℚ) < (f.den : ℚ) := by exact_mod_cast hdpos
        have hge : (0 : ℚ) ≤ (f.num : ℚ) / (f.den : ℚ) :=
          div_nonneg (by positivity) (le_of_lt hdq)
        have heq0 : (f.num : ℚ) / (f.den : ℚ) = 0 :=
          le_antisymm (by simpa [Frac.toRat] using h3) hge
        rw [div_eq_zero_iff] at heq0
        have h0 : f.num = 0 := by
          rcases heq0 with h0 | h0
          · exact_mod_cast h0
          · exact absurd (by exact_mod_cast h0) (Nat.pos_iff_ne_zero.mp hdpos)
        simp [hp, h0]

/-- Witness for C3 at the concrete input "2 cups flour". -/
theorem claim_C3_witness :
    (⟨"0", 2, some "cups", "flour"⟩ : Ingredient) ∈ parseIngredients "2 cups flour" ∧
    (0 < (⟨"0", (2 : ℚ), some "cups", "flour"⟩ : Ingredient).quantity ∧
     (⟨"0", (2 : ℚ), some "cups", "flour"⟩ : Ingredient).label ≠ "") :=
  ⟨by rw [parseIngredients_flour]; exact List.mem_singleton.mpr rfl,
   claim_C3.1 "2 cups flour" _ (by rw [parseIngredients_flour]; exact List.mem_singleton.mpr rfl)⟩

/-- When every line matching a step header is followed by a section from
which no usable step can be extracted, the header strategy as a whole
fails. -/
theorem tryHeaders_none : ∀ lines : List (List Char),
    (∀ i (h : i < lines.length), isHeaderL (trimChars (lines.get ⟨i, h⟩)) stepHeaders = true →
      extractSection (lines.drop (i + 1)) = []) →
    tryHeaders lines = none := by
  intro lines
  induction lines with
  | nil => intro _; rfl
  | cons l rest ih =>
    intro H
    have Htail : ∀ i (h : i < rest.length),
        isHeaderL (trimChars (rest.get ⟨i, h⟩)) stepHeaders = true →
        extractSection (rest.drop (i + 1)) = [] := by
      intro i h hh
      exact H (i + 1) (by simpa using Nat.succ_lt_succ h) hh
    unfold tryHeaders
    by_cases hh : isHeaderL (trimChars l) stepHeaders = true
    · have h0 : extractSection rest = [] := H 0 (by simp) hh
      simp [hh, h0, ih Htail]
    · simp [hh, ih Htail]

/-- C4: on a text with an "Instructions:" header, four numbered steps and
a trailing "Ingredients:" section, `parseSteps` returns exactly the four
cleaned steps and nothing from after the trailing header; and whenever
every found step header extracts zero usable steps, `parseSteps` falls
through to the numbered and then bulleted fallback strategies. -/
theorem claim_C4 :
    parseSteps "Instructions:\n1. Preheat the oven\n2. Mix dry items\n3. Add wet items\n4. Bake for thirty minutes\nIngredients:\n2 cups flour\n1 cup sugar" =
      ["Preheat the oven", "Mix dry items", "Add wet items", "Bake for thirty minutes"] ∧
    (∀ s : String,
      (∀ i (h : i < (linesOf s).length),
        isHeaderL (trimChars ((linesOf s).get ⟨i, h⟩)) stepHeaders = true →
        extractSection ((linesOf s).drop (i + 1)) = []) →
      parseSteps s =
        if (findNumberedSteps (linesOf s)).isEmpty then
          (findBulletedSteps (linesOf s)).map String.mk
        else (findNumberedSteps (linesOf s)).map String.mk) := by
  constructor
  · decide
  · intro s H
    by_cases hs : s = ""
    · subst hs
      decide
    · have ht := tryHeaders_none (linesOf s) H
      unfold parseSteps
      rw [if_neg hs]
      simp only []
      rw [ht]

/-- Witness for C4's fall-through clause at a concrete header-free
input. -/
theorem claim_C4_witness :
    (∀ i (h : i < (linesOf "just words\n1. Add the flour\n2. Stir it well").length),
      isHeaderL (trimChars ((linesOf "just words\n1. Add the flour\n2. Stir it well").get ⟨i, h⟩))
          stepHeaders = true →
      extractSection ((linesOf "just words\n1. Add the flour\n2. Stir it well").drop (i + 1)) = []) ∧
    parseSteps "just words\n1. Add the flour\n2. Stir it well" =
      if (findNumberedSteps (linesOf "just words\n1. Add the flour\n2. Stir it well")).isEmpty then
        (findBulletedSteps (linesOf "just words\n1. Add the flour\n2. Stir it well")).map String.mk
      else (findNumberedSteps (linesOf "just words\n1. Add the flour\n2. Stir it well")).map String.mk :=
  ⟨by decide, claim_C4.2 "just words\n1. Add the flour\n2. Stir it well" (by decide)⟩

/-- C5 as stated is false: the numbered fallback accepts a lowest step
number of 0, not only 1 or 2.  On this input the collected numbers are
0 and 1 and the steps are still returned. -/
theorem claim_C5_counterexample :
    parseSteps "0. Mix everything well\n1. Bake it" = ["Mix everything well", "Bake it"] ∧
    (collectNumbered (linesOf "0. Mix everything well\n1. Bake it")).map NumStep.num = [0, 1] := by
  decide

/-- C5 (amended): the numbered fallback returns steps only when at least
two numbered lines with non-empty cleaned text were collected and the
lowest collected number is at most 2 (not: exactly 1 or 2); the result is
the cleaned texts sorted by numeric prefix; a single numbered line yields
an empty result. -/
theorem claim_C5 :
    (∀ lines, findNumberedSteps lines ≠ [] →
      2 ≤ (collectNumbered lines).length ∧
      (∃ p ∈ collectNumbered lines, p.num ≤ 2 ∧ ∀ q ∈ collectNumbered lines, p.num ≤ q.num) ∧
      findNumberedSteps lines = (sortPairs (collectNumbered lines)).map NumStep.text) ∧
    parseSteps "1. Mix the flour" = [] := by
  constructor
  · intro lines hne
    unfold findNumberedSteps at hne ⊢
    simp only [] at hne ⊢
    by_cases h2 : 2 ≤ (collectNumbered lines).length
    · simp only [if_pos h2] at hne ⊢
      have hperm := List.perm_insertionSort (fun a b : NumStep => a.num ≤ b.num)
        (collectNumbered lines)
      have hsorted := List.sorted_insertionSort (fun a b : NumStep => a.num ≤ b.num)
        (collectNumbered lines)
      rcases hsort : sortPairs (collectNumbered lines) with _ | ⟨p, ps⟩
      · rw [hsort] at hne
        simp at hne
      · have hsortI : List.insertionSort (fun a b : NumStep => a.num ≤ b.num)
            (collectNumbered lines) = p :: ps := hsort
        rw [hsortI] at hperm hsorted
        rw [hsort] at hne
        by_cases hp : p.num ≤ 2
        · refine ⟨h2, ⟨p, hperm.mem_iff.mp (List.mem_cons_self _ _), hp, ?_⟩, ?_⟩
          · intro q hq
            rcases List.mem_cons.mp (hperm.mem_iff.mpr hq) with h | h
            · rw [h]
            · exact List.rel_of_sorted_cons hsorted q h
          · simp [hp]
        · simp [hp] at hne
    · rw [if_neg h2] at hne
      simp at hne
  · decide

/-- Witness for the amended C5 at a concrete two-step input. -/
theorem claim_C5_witness :
    findNumberedSteps (linesOf "1. Mix everything\n2. Bake the cake") ≠ [] ∧
    (2 ≤ (collectNumbered (linesOf "1. Mix everything\n2. Bake the cake")).length ∧
     (∃ p ∈ collectNumbered (linesOf "1. Mix everything\n2. Bake the cake"), p.num ≤ 2 ∧
       ∀ q ∈ collectNumbered (linesOf "1. Mix everything\n2. Bake the cake"), p.num ≤ q.num) ∧
     findNumberedSteps (linesOf "1. Mix everything\n2. Bake the cake") =
       (sortPairs (collectNumbered (linesOf "1. Mix everything\n2. Bake the cake"))).map
         NumStep.text) :=
  ⟨by decide, claim_C5.1 (linesOf "1. Mix everything\n2. Bake the cake") (by decide)⟩

/-- An accepted bulleted line appends its cleaned text and bumps the
consecutive-bullet counter. -/
theorem bulletAux_accept (l : List Char) (rest : List (List Char)) (steps : List (List Char))
    (inB : Bool) (cb : ℕ) (h : acceptedBullet l = true) :
    bulletAux (l :: rest) steps inB cb =
      bulletAux rest (steps ++ [cleanStepLine (trimChars l)]) true (cb + 1) := by
  unfold acceptedBullet at h
  simp only [Bool.and_eq_true, Bool.not_eq_true', decide_eq_true_eq] at h
  obtain ⟨⟨⟨h1, h2⟩, h3⟩, h4⟩ := h
  conv_lhs => unfold bulletAux
  simp [h1, h2, h3, h4]

/-- C6 as stated is false: after an accepted bulleted step, two non-blank
non-bulleted lines in a row do NOT abandon the run — a later bulleted
line is still collected. -/
theorem claim_C6_counterexample :
    findBulletedSteps (linesOf "- Stir the mixture thoroughly now\nplain filler line\nanother filler line\n- Fold in the remaining flour gently") =
      ["Stir the mixture thoroughly now".data, "Fold in the remaining flour gently".data] := by
  decide

/-- C6 (amended): the run is abandoned at the first BLANK line once at
least two bulleted steps were accepted consecutively (non-blank
non-bulleted lines only reset the consecutive counter), and the
fallback's result is returned only when at least two steps were
collected, otherwise it is empty. -/
theorem claim_C6 :
    (∀ b1 b2 rest, acceptedBullet b1 = true → acceptedBullet b2 = true →
      findBulletedSteps (b1 :: b2 :: ([] : List Char) :: rest) =
        [cleanStepLine (trimChars b1), cleanStepLine (trimChars b2)]) ∧
    (∀ lines, findBulletedSteps lines = [] ∨ 2 ≤ (findBulletedSteps lines).length) := by
  constructor
  · intro b1 b2 rest hb1 hb2
    unfold findBulletedSteps
    rw [bulletAux_accept _ _ _ _ _ hb1, bulletAux_accept _ _ _ _ _ hb2]
    have hstop : bulletAux (([] : List Char) :: rest)
        ((([] : List (List Char)) ++ [cleanStepLine (trimChars b1)]) ++
          [cleanStepLine (trimChars b2)]) true (0 + 1 + 1) =
        [cleanStepLine (trimChars b1), cleanStepLine (trimChars b2)] := by
      unfold bulletAux
      simp [trimChars]
    rw [hstop]
    simp
  · intro lines
    unfold findBulletedSteps
    simp only []
    by_cases h : 2 ≤ (bulletAux lines [] false 0).length
    · rw [if_pos h]
      exact Or.inr h
    · rw [if_neg h]
      exact Or.inl rfl

/-- Witness for the amended C6 at two concrete accepted bullets followed
by a blank line. -/
theorem claim_C6_witness :
    acceptedBullet "- Stir the mixture thoroughly now".data = true ∧
    acceptedBullet "- Fold in the remaining flour gently".data = true ∧
    findBulletedSteps ("- Stir the mixture thoroughly now".data ::
        "- Fold in the remaining flour gently".data :: ([] : List Char) :: []) =
      [cleanStepLine (trimChars "- Stir the mixture thoroughly now".data),
       cleanStepLine (trimChars "- Fold in the remaining flour gently".data)] :=
  ⟨by decide, by decide, claim_C6.1 _ _ _ (by decide) (by decide)⟩

/-- Filtering on one key commutes with the ordered insert: the inserted
element lands in front of the equal-key elements already present. -/
theorem filter_orderedInsert (k : ℕ) (x : NumStep) :
    ∀ l : List NumStep,
      (List.orderedInsert (fun a b => a.num ≤ b.num) x l).filter (fun p => p.num == k) =
      if x.num = k then x :: l.filter (fun p => p.num == k)
      else l.filter (fun p => p.num == k) := by
  intro l
  induction l with
  | nil =>
    by_cases hx : x.num = k <;> simp [List.orderedInsert, List.filter_cons, hx]
  | cons y ys ih =>
    unfold List.orderedInsert
    by_cases hr : x.num ≤ y.num
    · rw [if_pos hr]
      by_cases hx : x.num = k <;> by_cases hy : y.num = k <;>
        simp [List.filter_cons, hx, hy]
    · rw [if_neg hr]
      by_cases hx : x.num = k
      · have hy : ¬(y.num = k) := by omega
        simp [List.filter_cons, hx, hy, ih]
      · by_cases hy : y.num = k <;> simp [List.filter_cons, hx, hy, ih]

/-- The stable sort preserves, for every key, the exact subsequence of
entries carrying that key. -/
theorem filter_sortPairs (k : ℕ) :
    ∀ l : List NumStep,
      (sortPairs l).filter (fun p => p.num == k) = l.filter (fun p => p.num == k) := by
  intro l
  induction l with
  | nil => rfl
  | cons x xs ih =>
    show (List.insertionSort _ (x :: xs)).filter _ = _
    unfold List.insertionSort
    rw [filter_orderedInsert]
    by_cases hx : x.num = k <;> simp [List.filter_cons, hx] <;> exact ih

/-- C10: duplicated step numbers in the numbered fallback are all kept in
source order (the sort is stable and does not deduplicate): for every
key, the key's subsequence of sorted collected lines equals its
subsequence of the collected lines; the non-empty output is exactly the
sorted collection's texts; and a concrete duplicate input keeps both "1."
lines in source order. -/
theorem claim_C10 :
    (∀ lines (k : ℕ),
      ((sortPairs (collectNumbered lines)).filter fun p => p.num == k) =
        ((collectNumbered lines).filter fun p => p.num == k)) ∧
    (∀ lines, findNumberedSteps lines = [] ∨
      findNumberedSteps lines = (sortPairs (collectNumbered lines)).map NumStep.text) ∧
    parseSteps "1. Wash the rice\n1. Rinse again\n2. Cook until done" =
      ["Wash the rice", "Rinse again", "Cook until done"] := by
  refine ⟨fun lines k => filter_sortPairs k _, ?_, by decide⟩
  intro lines
  unfold findNumberedSteps
  simp only []
  by_cases h2 : 2 ≤ (collectNumbered lines).length
  · simp only [if_pos h2]
    rcases hsort : sortPairs (collectNumbered lines) with _ | ⟨p, ps⟩
    · simp
    · by_cases hp : p.num ≤ 2
      · right
        simp [hp]
      · left
        simp [hp]
  · left
    simp [h2]

theorem digitVal_digitChar {n : ℕ} (h : n < 10) : digitVal (digitChar n) = n := by
  interval_cases n <;> rfl

theorem digitChar_ne_dot (n : ℕ) : digitChar n ≠ '.' := by
  unfold digitChar
  split <;> decide

theorem digitChar_ne_zero {n : ℕ} (h1 : n < 10) (h2 : n ≠ 0) : digitChar n ≠ '0' := by
  interval_cases n
  · exact absurd rfl h2
  all_goals decide

theorem natDigitsAux_not_dot : ∀ fuel n, ∀ c ∈ natDigitsAux fuel n, c ≠ '.' := by
  intro fuel
  induction fuel with
  | zero =>
    intro n c hc
    simp [natDigitsAux] at hc
  | succ f ih =>
    intro n c hc
    unfold natDigitsAux at hc
    by_cases h10 : n < 10
    · rw [if_pos h10] at hc
      simp at hc
      subst hc
      exact digitChar_ne_dot n
    · rw [if_neg h10] at hc
      rcases List.mem_append.mp hc with h | h
      · exact ih _ _ h
      · simp at h
        subst h
        exact digitChar_ne_dot _

theorem natDigits_not_dot (n : ℕ) : ∀ c ∈ natDigits n, c ≠ '.' :=
  fun c hc => natDigitsAux_not_dot _ _ c hc

theorem digitsVal_append_one (l : List Char) (c : Char) :
    digitsVal (l ++ [c]) = 10 * digitsVal l + digitVal c := by
  unfold digitsVal
  rw [List.foldl_append]
  rfl

theorem digitsVal_natDigitsAux : ∀ fuel n, n < fuel → digitsVal (natDigitsAux fuel n) = n := by
  intro fuel
  induction fuel with
  | zero =>
    intro n h
    omega
  | succ f ih =>
    intro n h
    unfold natDigitsAux
    by_cases h10 : n < 10
    · rw [if_pos h10]
      show 10 * 0 + digitVal (digitChar n) = n
      rw [digitVal_digitChar h10]
      omega
    · rw [if_neg h10]
      rw [digitsVal_append_one]
      have hdiv : n / 10 < n := Nat.div_lt_self (by omega) (by norm_num)
      rw [ih (n / 10) (by omega)]
      rw [digitVal_digitChar (Nat.mod_lt n (by norm_num))]
      omega

theorem digitsVal_natDigits (n : ℕ) : digitsVal (natDigits n) = n :=
  digitsVal_natDigitsAux (n + 1) n (Nat.lt_succ_self n)

theorem takeWhile_total {p : Char → Bool} :
    ∀ l : List Char, (∀ c ∈ l, p c = true) → l.takeWhile p = l ∧ l.dropWhile p = [] := by
  intro l
  induction l with
  | nil => intro _; exact ⟨rfl, rfl⟩
  | cons c cs ih =>
    intro h
    have hc : p c = true := h c (by simp)
    have ht := ih fun x hx => h x (by simp [hx])
    simp [List.takeWhile_cons, List.dropWhile_cons, hc, ht.1, ht.2]

theorem takeWhile_break {p : Char → Bool} :
    ∀ (l : List Char) (c : Char) (r : List Char), (∀ x ∈ l, p x = true) → p c = false →
      (l ++ c :: r).takeWhile p = l ∧ (l ++ c :: r).dropWhile p = c :: r := by
  intro l
  induction l with
  | nil =>
    intro c r _ hc
    simp [List.takeWhile_cons, List.dropWhile_cons, hc]
  | cons a as ih =>
    intro c r h hc
    have ha : p a = true := h a (by simp)
    have ht := ih c r (fun x hx => h x (by simp [hx])) hc
    simp [List.takeWhile_cons, List.dropWhile_cons, ha, ht.1, ht.2]

theorem strToRat_digits (n : ℕ) : strToRat (String.mk (natDigits n)) = (n : ℚ) := by
  unfold strToRat
  have h := takeWhile_total (p := fun c => c != '.') (natDigits n)
    fun c hc => bne_iff_ne.mpr (natDigits_not_dot n c hc)
  rw [h.2]
  simp [h.1, digitsVal_natDigits]

theorem strToRat_point (ip : ℕ) (frac : List Char) :
    strToRat (String.mk (natDigits ip ++ '.' :: frac)) =
      (ip : ℚ) + (digitsVal frac : ℚ) / 10 ^ frac.length := by
  unfold strToRat
  have h := takeWhile_break (p := fun c => c != '.') (natDigits ip) '.' frac
    (fun c hc => bne_iff_ne.mpr (natDigits_not_dot ip c hc)) (by decide)
  rw [h.2]
  simp [h.1, digitsVal_natDigits]

theorem stripZeros_zero (fp : ℕ) : stripZeros fp 0 = (fp, 0) := rfl

theorem stripZeros_succ (fp d : ℕ) :
    stripZeros fp (d + 1) = if fp % 10 = 0 then stripZeros (fp / 10) d else (fp, d + 1) := rfl

theorem stripZeros_two (fp : ℕ) :
    stripZeros fp 2 =
      if fp % 10 = 0 then
        (if fp / 10 % 10 = 0 then (fp / 100, 0) else (fp / 10, 1))
      else (fp, 2) := by
  show stripZeros fp (1 + 1) = _
  rw [stripZeros_succ]
  by_cases h : fp % 10 = 0
  · rw [if_pos h, if_pos h]
    show stripZeros (fp / 10) (0 + 1) = _
    rw [stripZeros_succ]
    by_cases h2 : fp / 10 % 10 = 0
    · rw [if_pos h2, if_pos h2, stripZeros_zero, Nat.div_div_eq_div_mul]
    · rw [if_neg h2, if_neg h2]
  · rw [if_neg h, if_neg h]

theorem padDigits_zero (fp : ℕ) : padDigits 0 fp = [] := rfl

theorem padDigits_succ (d fp : ℕ) :
    padDigits (d + 1) fp = padDigits d (fp / 10) ++ [digitChar (fp % 10)] := rfl

theorem padDigits_one (fp : ℕ) : padDigits 1 fp = [digitChar (fp % 10)] := by
  show padDigits (0 + 1) fp = _
  rw [padDigits_succ, padDigits_zero]
  rfl

theorem padDigits_two (fp : ℕ) :
    padDigits 2 fp = [digitChar (fp / 10 % 10), digitChar (fp % 10)] := by
  show padDigits (1 + 1) fp = _
  rw [padDigits_succ, padDigits_one]
  rfl

theorem digitsVal_one (c : Char) : digitsVal [c] = digitVal c := by
  show 10 * 0 + digitVal c = digitVal c
  omega

theorem digitsVal_two (c1 c2 : Char) : digitsVal [c1, c2] = 10 * digitVal c1 + digitVal c2 := by
  show 10 * (10 * 0 + digitVal c1) + digitVal c2 = _
  omega

/-- The rendering of `n / 100` is faithful (it parses back to the exact
value), has at most two fractional digits, and carries no trailing zero
and no trailing decimal point. -/
theorem renderScaled_spec (n : ℕ) :
    strToRat (String.mk (renderScaled n 2)) = (n : ℚ) / 100 ∧
    ((renderScaled n 2).dropWhile fun c => c != '.').length ≤ 3 ∧
    ('.' ∈ renderScaled n 2 →
      (renderScaled n 2).getLast? ≠ some '0' ∧ (renderScaled n 2).getLast? ≠ some '.') := by
  have hpow : (10 : ℕ) ^ 2 = 100 := by norm_num
  have hlt : n % 100 < 100 := Nat.mod_lt _ (by norm_num)
  have hnd := natDigits_not_dot (n / 100)
  have hndp : ∀ c ∈ natDigits (n / 100), (fun c => c != '.') c = true :=
    fun c hc => bne_iff_ne.mpr (hnd c hc)
  by_cases h0 : n % 100 = 0
  · -- no fractional part
    have hrender : renderScaled n 2 = natDigits (n / 100) := by
      unfold renderScaled
      rw [hpow, h0, stripZeros_two]
      norm_num
    have hdrop := (takeWhile_total (p := fun c => c != '.') (natDigits (n / 100)) hndp).2
    refine ⟨?_, ?_, ?_⟩
    · rw [hrender, strToRat_digits, eq_div_iff (by norm_num : (100 : ℚ) ≠ 0)]
      exact_mod_cast Nat.div_mul_cancel (Nat.dvd_of_mod_eq_zero h0)
    · rw [hrender, hdrop]
      simp
    · rw [hrender]
      intro hdot
      exact absurd rfl (hnd '.' hdot)
  · by_cases h10 : n % 100 % 10 = 0
    · -- one fractional digit
      have hge : 10 ≤ n % 100 := by omega
      have hq : n % 100 / 10 < 10 := by omega
      have hq0 : n % 100 / 10 ≠ 0 := by omega
      have hsz : stripZeros (n % 100) 2 = (n % 100 / 10, 1) := by
        rw [stripZeros_two, if_pos h10, if_neg (by omega : ¬n % 100 / 10 % 10 = 0)]
      have hrender : renderScaled n 2 =
          natDigits (n / 100) ++ '.' :: [digitChar (n % 100 / 10 % 10)] := by
        unfold renderScaled
        rw [hpow, hsz, padDigits_one]
        norm_num
      have hmod : n % 100 / 10 % 10 = n % 100 / 10 := Nat.mod_eq_of_lt hq
      have hbreak := takeWhile_break (p := fun c => c != '.') (natDigits (n / 100)) '.'
        [digitChar (n % 100 / 10 % 10)] hndp (by decide)
      refine ⟨?_, ?_, ?_⟩
      · rw [hrender, strToRat_point, digitsVal_one, hmod,
          digitVal_digitChar hq]
        have hn : (n : ℚ) = 100 * ((n / 100 : ℕ) : ℚ) + 10 * ((n % 100 / 10 : ℕ) : ℚ) := by
          have : n = 100 * (n / 100) + 10 * (n % 100 / 10) := by omega
          exact_mod_cast congrArg (Nat.cast : ℕ → ℚ) this
        rw [hn]
        field_simp
        ring
      · rw [hrender, hbreak.2]
        simp
      · rw [hrender]
        intro _
        rw [List.getLast?_append]
        constructor
        · simp only [List.getLast?_cons_cons, List.getLast?_singleton, Option.or_some]
          intro hcon
          exact absurd (by simpa using hcon)
            (digitChar_ne_zero (hmod ▸ hq) (by rw [hmod]; exact hq0))
        · simp only [List.getLast?_cons_cons, List.getLast?_singleton, Option.or_some]
          intro hcon
          exact absurd (by simpa using hcon) (digitChar_ne_dot _)
    · -- two fractional digits
      have hq : n % 100 / 10 < 10 := by omega
      have hsz : stripZeros (n % 100) 2 = (n % 100, 2) := by
        rw [stripZeros_two, if_neg h10]
      have hrender : renderScaled n 2 = natDigits (n / 100) ++
          '.' :: [digitChar (n % 100 / 10 % 10), digitChar (n % 100 % 10)] := by
        unfold renderScaled
        rw [hpow, hsz, padDigits_two]
        norm_num
      have hbreak := takeWhile_break (p := fun c => c != '.') (natDigits (n / 100)) '.'
        [digitChar (n % 100 / 10 % 10), digitChar (n % 100 % 10)] hndp (by decide)
      refine ⟨?_, ?_, ?_⟩
      · rw [hrender, strToRat_point, digitsVal_two,
          digitVal_digitChar (le_rfl.trans_lt (Nat.mod_lt _ (by norm_num)) :
            n % 100 / 10 % 10 < 10),
          digitVal_digitChar (Nat.mod_lt _ (by norm_num) : n % 100 % 10 < 10)]
        have harith : 10 * (n % 100 / 10 % 10) + n % 100 % 10 = n % 100 := by omega
        rw [harith]
        have hn : (n : ℚ) = 100 * ((n / 100 : ℕ) : ℚ) + ((n % 100 : ℕ) : ℚ) := by
          have : n = 100 * (n / 100) + n % 100 := by omega
          exact_mod_cast congrArg (Nat.cast : ℕ → ℚ) this
        rw [hn]
        field_simp
        ring
      · rw [hrender, hbreak.2]
        simp
      · rw [hrender]
        intro _
        rw [List.getLast?_append]
        constructor
        · simp only [List.getLast?_cons_cons, List.getLast?_singleton, Option.or_some]
          intro hcon
          exact absurd (by simpa using hcon)
            (digitChar_ne_zero (Nat.mod_lt _ (by norm_num)) h10)
        · simp only [List.getLast?_cons_cons, List.getLast?_singleton, Option.or_some]
          intro hcon
          exact absurd (by simpa using hcon) (digitChar_ne_dot _)

/-- C9: for every non-negative quantity, `formatQuantity` (with the
default of 2 maximum decimals) rounds with `Math.round` to the exact
value `round(q * 100) / 100` — the printed string parses back to exactly
that value — prints at most two fractional digits, never a trailing zero
or trailing decimal point, and in particular prints "2", "1.5" and
"0.33" for 2, 1.5 and 0.3333. -/
theorem claim_C9 (q : ℚ) (hq : 0 ≤ q) :
    strToRat (formatQuantity q 2) = (jsRound (q * 100) : ℚ) / 100 ∧
    ((formatQuantity q 2).data.dropWhile fun c => c != '.').length ≤ 3 ∧
    ('.' ∈ (formatQuantity q 2).data →
      (formatQuantity q 2).data.getLast? ≠ some '0' ∧
      (formatQuantity q 2).data.getLast? ≠ some '.') ∧
    formatQuantity 2 2 = "2" ∧ formatQuantity (3/2) 2 = "1.5" ∧
    formatQuantity (3333/10000) 2 = "0.33" := by
  have hqp : q * 10 ^ 2 = q * 100 := by norm_num
  have hnn : 0 ≤ jsRound (q * 100) := by
    unfold jsRound
    exact Int.floor_nonneg.mpr (by positivity)
  have hfq : formatQuantity q 2 = String.mk (renderScaled (jsRound (q * 100)).toNat 2) := by
    unfold formatQuantity
    rw [hqp, if_neg (by omega)]
  obtain ⟨hv, hlen, hlast⟩ := renderScaled_spec (jsRound (q * 100)).toNat
  refine ⟨?_, ?_, ?_, ?_, ?_, ?_⟩
  · rw [hfq, hv]
    congr 1
    exact_mod_cast congrArg (Int.cast : ℤ → ℚ) (Int.toNat_of_nonneg hnn)
  · rw [hfq]
    exact hlen
  · rw [hfq]
    exact hlast
  · have e1 : jsRound ((2 : ℚ) * 10 ^ 2) = 200 := by
      unfold jsRound
      rw [Int.floor_eq_iff]
      norm_num
    unfold formatQuantity
    rw [e1]
    decide
  · have e2 : jsRound ((3/2 : ℚ) * 10 ^ 2) = 150 := by
      unfold jsRound
      rw [Int.floor_eq_iff]
      norm_num
    unfold formatQuantity
    rw [e2]
    decide
  · have e3 : jsRound ((3333/10000 : ℚ) * 10 ^ 2) = 33 := by
      unfold jsRound
      rw [Int.floor_eq_iff]
      norm_num
    unfold formatQuantity
    rw [e3]
    decide

/-- Witness for C9 at the concrete quantity 1.5. -/
theorem claim_C9_witness :
    (0 : ℚ) ≤ 3/2 ∧
    (strToRat (formatQuantity (3/2) 2) = (jsRound ((3/2) * 100) : ℚ) / 100 ∧
     ((formatQuantity (3/2) 2).data.dropWhile fun c => c != '.').length ≤ 3 ∧
     ('.' ∈ (formatQuantity (3/2) 2).data →
       (formatQuantity (3/2) 2).data.getLast? ≠ some '0' ∧
       (formatQuantity (3/2) 2).data.getLast? ≠ some '.') ∧
     formatQuantity 2 2 = "2" ∧ formatQuantity (3/2) 2 = "1.5" ∧
     formatQuantity (3333/10000) 2 = "0.33") :=
  ⟨by norm_num, claim_C9 (3/2) (by norm_num)⟩

/-- C7: the source's line clean-up was meant (per its own comment,
"remove leading dashes, bullets, asterisks, and whitespace") to strip the
bullet U+2022, but the regex character class is encoding-corrupted, so a
line "• 2 cups flour" is not cleaned, matches no leading quantity, and is
dropped entirely instead of parsing like "2 cups flour". -/
theorem claim_C7_eval :
    parseIngredients "• 2 cups flour" = [] ∧
    (parseIngredients "2 cups flour").map (fun i => (i.quantity, i.unit, i.label)) =
      [((2 : ℚ), some "cups", "flour")] := by
  constructor
  · have h : (splitLines ("• 2 cups flour").data).filterMap parseLine = [] := by decide
    simp [parseIngredients, h, buildIngredients]
  · have h : (splitLines ("2 cups flour").data).filterMap parseLine =
        [(⟨2, 1⟩, some "cups".data, "flour".data)] := by decide
    unfold parseIngredients
    rw [h]
    simp only [buildIngredients, List.map_cons, List.map_nil, List.cons.injEq, Prod.mk.injEq,
      Frac.toRat, Option.map_some, and_true]
    norm_num

end RecipeScale
